import Mathlib

/-!
Verification of the `ThreadSafeList2D` doubly linked list
(`src/ThreadSafeList2D/ThreadSafeList2D/ThreadSafeList2D.h`).

The C++ class manipulates raw `Node*` pointers.  We embed the heap as a
list of slots (`Mem T`), a slot index playing the role of an address:
`some n` is a live node, `none` a freed or never-allocated slot.
Allocation (`new Node`) appends a fresh slot; `delete` overwrites the
slot with `none`.  Dereferencing a null pointer, a freed slot, or
running a scan loop forever (possible only on a corrupted cyclic chain)
is undefined behaviour in C++; operations therefore return `Option`,
with `none` marking undefined behaviour, and scans carry explicit fuel
(`mem.length` bounds the number of live nodes, so on any well-formed
state the fuel is never exhausted).

Exceptions (`ElementNotFound`, `AcceessViolation` — the source's
spelling) are embedded with `Except`.  `remove`, whose C++ signature is
`void remove(T)` mutating `*this` and possibly throwing, returns the
post-call object state paired with the outcome, so "the structure is
unmodified on failure" is expressible.  `front`/`back`/`size`/`empty`
perform no stores in the source, which the embedding reflects by not
returning a state at all.
-/

set_option autoImplicit false

abbrev Addr := Nat

/-- One heap node: `struct Node { Node* prev; T value; Node* next; }`. -/
structure NodeRec (T : Type) where
  prev : Option Addr
  value : T
  next : Option Addr
  deriving DecidableEq, Repr

/-- The heap: slot `a` holds `some n` when address `a` is a live node. -/
abbrev Mem (T : Type) := List (Option (NodeRec T))

/-- Dereference address `a` (out-of-range or freed slot gives `none`). -/
def getNode {T : Type} (mem : Mem T) (a : Addr) : Option (NodeRec T) :=
  (mem[a]?).join

/-- Field store through a possibly-null pointer: `none` address or dead
slot is undefined behaviour. -/
def store {T : Type} (mem : Mem T) (oa : Option Addr) (f : NodeRec T → NodeRec T) :
    Option (Mem T) :=
  match oa with
  | none => none
  | some a =>
    match getNode mem a with
    | none => none
    | some n => some (mem.set a (some (f n)))

/-- `p->prev = q` for a possibly-null `p`. -/
def setPrevAt {T : Type} (mem : Mem T) (oa : Option Addr) (q : Option Addr) :
    Option (Mem T) :=
  store mem oa (fun n => { n with prev := q })

/-- `p->next = q` for a possibly-null `p`. -/
def setNextAt {T : Type} (mem : Mem T) (oa : Option Addr) (q : Option Addr) :
    Option (Mem T) :=
  store mem oa (fun n => { n with next := q })

/-- The two exception types of the source header. -/
inductive ListErr where
  | elementNotFound
  | acceessViolation
  deriving DecidableEq, Repr

/-- State of a `ThreadSafeList2D<T>` object: the heap it owns plus the
`head`, `tail` and `size_` members.  The `std::mutex` member only
serializes calls and has no effect on the sequential semantics
modelled here. -/
structure ThreadSafeList2D (T : Type) where
  mem : Mem T
  head : Option Addr
  tail : Option Addr
  size_ : Nat
  deriving Repr

namespace ThreadSafeList2D

variable {T : Type}

/-- The constructor: `head(nullptr), tail(nullptr), size_(0)`. -/
def init : ThreadSafeList2D T := ⟨[], none, none, 0⟩

/-- `T front()`: throws `AcceessViolation` when `head` is null,
otherwise returns `head->value`. -/
def front (s : ThreadSafeList2D T) : Option (Except ListErr T) :=
  match s.head with
  | none => some (Except.error ListErr.acceessViolation)
  | some a =>
    match getNode s.mem a with
    | none => none
    | some n => some (Except.ok n.value)

/-- `T back()`: throws `AcceessViolation` when `tail` is null,
otherwise returns `tail->value`. -/
def back (s : ThreadSafeList2D T) : Option (Except ListErr T) :=
  match s.tail with
  | none => some (Except.error ListErr.acceessViolation)
  | some a =>
    match getNode s.mem a with
    | none => none
    | some n => some (Except.ok n.value)

/-- `size_t size() noexcept`: returns `size_`. -/
def size (s : ThreadSafeList2D T) : Nat := s.size_

/-- `bool empty() noexcept`: returns `size_ == 0`. -/
def empty (s : ThreadSafeList2D T) : Bool := s.size_ == 0

/-- `void push_front(T val) noexcept`: allocate `Node(val)` (null
`prev`/`next`); when the list is empty set `head = tail = node`,
otherwise `node->next = head; head = node; node->next->prev = node`;
finally `size_++`. -/
def push_front (s : ThreadSafeList2D T) (val : T) : Option (ThreadSafeList2D T) :=
  let addr := s.mem.length
  match s.head with
  | none =>
    some { mem := s.mem ++ [some ⟨none, val, none⟩],
           head := some addr, tail := some addr, size_ := s.size_ + 1 }
  | some h =>
    let mem1 := s.mem ++ [some ⟨none, val, some h⟩]
    match setPrevAt mem1 (some h) (some addr) with
    | none => none
    | some mem2 =>
      some { mem := mem2, head := some addr, tail := s.tail, size_ := s.size_ + 1 }

/-- `void push_back(T val) noexcept`: allocate `Node(val, tail)`
(`prev = tail`, null `next`); when the list is empty set
`head = tail = node`, otherwise `tail->next = node; tail = node`;
finally `size_++`. -/
def push_back (s : ThreadSafeList2D T) (val : T) : Option (ThreadSafeList2D T) :=
  let addr := s.mem.length
  let mem1 := s.mem ++ [some ⟨s.tail, val, none⟩]
  match s.head with
  | none =>
    some { mem := mem1, head := some addr, tail := some addr, size_ := s.size_ + 1 }
  | some _ =>
    match setNextAt mem1 s.tail (some addr) with
    | none => none
    | some mem2 =>
      some { mem := mem2, head := s.head, tail := some addr, size_ := s.size_ + 1 }

/-- The loop of `Node* find(T val) noexcept`: walk `next` from `cur`
comparing `node->value == val`; `fuel` bounds the number of iterations
(exhaustion models the non-terminating walk of a corrupted chain). -/
def findAux [DecidableEq T] (mem : Mem T) (val : T) :
    Option Addr → Nat → Option (Option Addr)
  | none, _ => some none
  | some _, 0 => none
  | some a, fuel + 1 =>
    match getNode mem a with
    | none => none
    | some n => if n.value = val then some (some a) else findAux mem val n.next fuel

/-- `Node* find(T val) noexcept`: linear scan from `head`. -/
def find [DecidableEq T] (s : ThreadSafeList2D T) (val : T) : Option (Option Addr) :=
  findAux s.mem val s.head s.mem.length

/-- `void remove(T val)`: locate the first node whose value equals
`val`; if none, throw `ElementNotFound` (the returned state is the
unchanged `s`); otherwise unlink it — head case
(`head = head->next; head ? head->prev = nullptr : tail = nullptr`),
tail case (`tail = tail->prev; if (tail) tail->next = nullptr`) or
middle case (`prev_node->next = next_node; next_node->prev = prev_node`)
— free the node and `size_--`. -/
def remove [DecidableEq T] (s : ThreadSafeList2D T) (val : T) :
    Option (ThreadSafeList2D T × Except ListErr Unit) :=
  match find s val with
  | none => none
  | some none => some (s, Except.error ListErr.elementNotFound)
  | some (some a) =>
    match getNode s.mem a with
    | none => none
    | some n =>
      if s.head = some a then
        match n.next with
        | some h2 =>
          match setPrevAt s.mem (some h2) none with
          | none => none
          | some mem1 =>
            some ({ mem := mem1.set a none, head := some h2,
                    tail := s.tail, size_ := s.size_ - 1 }, Except.ok ())
        | none =>
          some ({ mem := s.mem.set a none, head := none,
                  tail := none, size_ := s.size_ - 1 }, Except.ok ())
      else if s.tail = some a then
        match n.prev with
        | some t2 =>
          match setNextAt s.mem (some t2) none with
          | none => none
          | some mem1 =>
            some ({ mem := mem1.set a none, head := s.head,
                    tail := some t2, size_ := s.size_ - 1 }, Except.ok ())
        | none =>
          some ({ mem := s.mem.set a none, head := s.head,
                  tail := none, size_ := s.size_ - 1 }, Except.ok ())
      else
        match setNextAt s.mem n.prev n.next with
        | none => none
        | some mem1 =>
          match setPrevAt mem1 n.next n.prev with
          | none => none
          | some mem2 =>
            some ({ mem := mem2.set a none, head := s.head,
                    tail := s.tail, size_ := s.size_ - 1 }, Except.ok ())

/-- The loop of `get_fwd` (TESTING_MODE): collect values following
`next` from `cur`, with fuel. -/
def fwdAux (mem : Mem T) : Option Addr → Nat → Option (List T)
  | none, _ => some []
  | some _, 0 => none
  | some a, fuel + 1 =>
    match getNode mem a with
    | none => none
    | some n => (fwdAux mem n.next fuel).map (fun r => n.value :: r)

/-- `std::vector<T> get_fwd()`: forward snapshot from `head`. -/
def get_fwd (s : ThreadSafeList2D T) : Option (List T) :=
  fwdAux s.mem s.head s.mem.length

/-- The loop of `get_bwd` (TESTING_MODE): collect values following
`prev` from `cur`, with fuel. -/
def bwdAux (mem : Mem T) : Option Addr → Nat → Option (List T)
  | none, _ => some []
  | some _, 0 => none
  | some a, fuel + 1 =>
    match getNode mem a with
    | none => none
    | some n => (bwdAux mem n.prev fuel).map (fun r => n.value :: r)

/-- `std::vector<T> get_bwd()`: backward snapshot from `tail`. -/
def get_bwd (s : ThreadSafeList2D T) : Option (List T) :=
  bwdAux s.mem s.tail s.mem.length

/-- `Chain mem p c l`: starting from pointer `c`, whose target (if any)
has `prev = p`, following `next` pointers visits exactly the
address/value pairs `l` and ends at null.  This is the doubly linked
chain shape the data-model invariants of the spec describe. -/
inductive Chain (mem : Mem T) : Option Addr → Option Addr → List (Addr × T) → Prop
  | nil (p : Option Addr) : Chain mem p none []
  | cons {p : Option Addr} {a : Addr} {n : NodeRec T} {l : List (Addr × T)} :
      getNode mem a = some n → n.prev = p → Chain mem (some a) n.next l →
      Chain mem p (some a) ((a, n.value) :: l)

/-- Addresses of a chain description. -/
def addrs (l : List (Addr × T)) : List Addr := l.map Prod.fst

/-- Values of a chain description. -/
def vals (l : List (Addr × T)) : List T := l.map Prod.snd

@[simp] theorem addrs_nil : addrs ([] : List (Addr × T)) = [] := rfl

@[simp] theorem addrs_cons (x : Addr × T) (l : List (Addr × T)) :
    addrs (x :: l) = x.1 :: addrs l := rfl

@[simp] theorem addrs_append (l₁ l₂ : List (Addr × T)) :
    addrs (l₁ ++ l₂) = addrs l₁ ++ addrs l₂ := List.map_append _ _ _

@[simp] theorem vals_nil : vals ([] : List (Addr × T)) = [] := rfl

@[simp] theorem vals_cons (x : Addr × T) (l : List (Addr × T)) :
    vals (x :: l) = x.2 :: vals l := rfl

@[simp] theorem vals_append (l₁ l₂ : List (Addr × T)) :
    vals (l₁ ++ l₂) = vals l₁ ++ vals l₂ := List.map_append _ _ _

@[simp] theorem length_addrs (l : List (Addr × T)) : (addrs l).length = l.length :=
  List.length_map _ _

@[simp] theorem length_vals (l : List (Addr × T)) : (vals l).length = l.length :=
  List.length_map _ _

/-- Structural invariants of §3 of the spec: the `head` chain visits a
list `l` of nodes ending at null with correct `prev` back-links
(`Chain`), `size_` is its length, `tail` is its last address (null for
the empty chain), and every live heap slot is on the chain (no
unreachable nodes).  `head`/`tail` null iff `size_ = 0`, no cycles and
no revisits are consequences (`Chain.nodup`). -/
def Wf (s : ThreadSafeList2D T) : Prop :=
  ∃ l, Chain s.mem none s.head l ∧ s.size_ = l.length ∧
    s.tail = (addrs l).getLast? ∧
    ∀ a, getNode s.mem a ≠ none → a ∈ addrs l

/-- A concrete one-node list, used to exercise the theorems. -/
def single5 : ThreadSafeList2D Nat :=
  ⟨[some ⟨none, 5, none⟩], some 0, some 0, 1⟩

theorem getNode_lt {mem : Mem T} {a : Addr} {n : NodeRec T}
    (h : getNode mem a = some n) : a < mem.length := by
  by_contra hge
  have : mem[a]? = none := List.getElem?_eq_none (Nat.le_of_not_lt hge)
  simp [getNode, this] at h

theorem getNode_append {mem ext : Mem T} {a : Addr} (h : a < mem.length) :
    getNode (mem ++ ext) a = getNode mem a := by
  simp [getNode, List.getElem?_append_left h]

theorem getNode_concat_self (mem : Mem T) (o : Option (NodeRec T)) :
    getNode (mem ++ [o]) mem.length = o := by
  simp [getNode, List.getElem?_concat_length]

theorem getNode_set_ne {mem : Mem T} {a b : Addr} {o : Option (NodeRec T)}
    (h : b ≠ a) : getNode (mem.set b o) a = getNode mem a := by
  simp [getNode, List.getElem?_set_ne h]

theorem getNode_set_self {mem : Mem T} {b : Addr} {o : Option (NodeRec T)}
    (h : b < mem.length) : getNode (mem.set b o) b = o := by
  simp [getNode, List.getElem?_set_self h]

theorem getNode_set_none_self (mem : Mem T) (b : Addr) :
    getNode (mem.set b none) b = none := by
  by_cases h : b < mem.length
  · simp [getNode_set_self h]
  · have h1 : mem.set b none = mem := List.set_eq_of_length_le (Nat.le_of_not_lt h)
    have h2 : mem[b]? = none := List.getElem?_eq_none (Nat.le_of_not_lt h)
    simp [h1, getNode, h2]

theorem store_eq_some {mem : Mem T} {a : Addr} {f : NodeRec T → NodeRec T}
    {n : NodeRec T} (h : getNode mem a = some n) :
    store mem (some a) f = some (mem.set a (some (f n))) := by
  simp [store, h]

theorem store_some_elim {mem mem' : Mem T} {a : Addr} {f : NodeRec T → NodeRec T}
    (h : store mem (some a) f = some mem') :
    ∃ n, getNode mem a = some n ∧ mem' = mem.set a (some (f n)) := by
  unfold store at h
  cases hg : getNode mem a with
  | none => simp [hg] at h
  | some n => simp [hg] at h; exact ⟨n, rfl, h.symm⟩

theorem store_length {mem mem' : Mem T} {oa : Option Addr} {f : NodeRec T → NodeRec T}
    (h : store mem oa f = some mem') : mem'.length = mem.length := by
  cases oa with
  | none => simp [store] at h
  | some a =>
    obtain ⟨n, _, rfl⟩ := store_some_elim h
    exact List.length_set mem a _

theorem store_getNode_ne {mem mem' : Mem T} {a : Addr} {f : NodeRec T → NodeRec T}
    (h : store mem (some a) f = some mem') {x : Addr} (hx : a ≠ x) :
    getNode mem' x = getNode mem x := by
  obtain ⟨n, _, rfl⟩ := store_some_elim h
  exact getNode_set_ne hx

theorem store_dom {mem mem' : Mem T} {oa : Option Addr} {f : NodeRec T → NodeRec T}
    (h : store mem oa f = some mem') (x : Addr) :
    (getNode mem' x = none ↔ getNode mem x = none) := by
  cases oa with
  | none => simp [store] at h
  | some a =>
    obtain ⟨n, hn, rfl⟩ := store_some_elim h
    by_cases hax : a = x
    · subst hax
      rw [getNode_set_self (getNode_lt hn), hn]
      simp
    · rw [getNode_set_ne hax]

theorem Chain.mem_lt {mem : Mem T} {p c : Option Addr} {l : List (Addr × T)}
    (h : Chain mem p c l) : ∀ a ∈ addrs l, a < mem.length := by
  induction h with
  | nil p => simp
  | cons hget hprev htail ih =>
    intro x hx
    rcases List.mem_cons.mp hx with rfl | hx
    · exact getNode_lt hget
    · exact ih x hx

/-- Frame rule: a chain only looks at its own addresses. -/
theorem Chain.congr {mem mem' : Mem T} {p c : Option Addr} {l : List (Addr × T)}
    (h : Chain mem p c l)
    (hagree : ∀ a ∈ addrs l, getNode mem' a = getNode mem a) : Chain mem' p c l := by
  induction h with
  | nil p => exact .nil p
  | cons hget hprev htail ih =>
    refine .cons ?_ hprev (ih ?_)
    · rw [hagree _ (by simp)]
      exact hget
    · intro x hx
      exact hagree x (by simp [hx])

/-- Extending the heap with fresh slots preserves every chain. -/
theorem Chain.append_ext {mem : Mem T} {p c : Option Addr} {l : List (Addr × T)}
    (h : Chain mem p c l) (ext : Mem T) : Chain (mem ++ ext) p c l :=
  h.congr (fun a ha => getNode_append (h.mem_lt a ha))

/-- Inversion for a chain starting at a non-null pointer. -/
theorem Chain.cons_elim {mem : Mem T} {p c : Option Addr} {x : Addr × T}
    {l : List (Addr × T)} (h : Chain mem p c (x :: l)) :
    ∃ n, c = some x.1 ∧ getNode mem x.1 = some n ∧ n.prev = p ∧
      n.value = x.2 ∧ Chain mem (some x.1) n.next l := by
  cases h with
  | cons hget hprev htail => exact ⟨_, rfl, hget, hprev, rfl, htail⟩

/-- The chain starting at a given pointer is unique. -/
theorem Chain.det {mem : Mem T} {p q c : Option Addr} {l l' : List (Addr × T)}
    (h : Chain mem p c l) (h' : Chain mem q c l') : l = l' := by
  induction h generalizing q l' with
  | nil p => cases h' with
    | nil => rfl
  | cons hget hprev htail ih =>
    rename_i p a n lt
    cases h' with
    | cons hget' hprev' htail' =>
      rename_i n' lt'
      rw [hget] at hget'
      cases hget'
      rw [ih htail']

theorem Chain.suffix_of_mem {mem : Mem T} {p c : Option Addr} {l : List (Addr × T)}
    {a : Addr} (h : Chain mem p c l) (ha : a ∈ addrs l) :
    ∃ p' l', Chain mem p' (some a) l' ∧ l'.length ≤ l.length := by
  induction h with
  | nil p => simp at ha
  | cons hget hprev htail ih =>
    rename_i p b n lt
    rcases List.mem_cons.mp ha with rfl | ha
    · exact ⟨p, _, .cons hget hprev htail, Nat.le_refl _⟩
    · obtain ⟨p', l', hc, hlen⟩ := ih ha
      exact ⟨p', l', hc, Nat.le_succ_of_le hlen⟩

/-- A chain never revisits an address: the spec's "visiting each node
once (no cycles)". -/
theorem Chain.nodup {mem : Mem T} {p c : Option Addr} {l : List (Addr × T)}
    (h : Chain mem p c l) : (addrs l).Nodup := by
  induction h with
  | nil p => simp
  | cons hget hprev htail ih =>
    rename_i p a n lt
    refine List.nodup_cons.mpr ⟨?_, ih⟩
    intro hmem
    obtain ⟨p', l', hc, hlen⟩ := htail.suffix_of_mem hmem
    have := (Chain.cons hget hprev htail).det hc
    rw [← this] at hlen
    simp at hlen

/-- A chain is no longer than the heap (its addresses are distinct and
in range). -/
theorem Chain.length_le {mem : Mem T} {p c : Option Addr} {l : List (Addr × T)}
    (h : Chain mem p c l) : l.length ≤ mem.length := by
  have h1 : (addrs l).toFinset.card = (addrs l).length :=
    List.toFinset_card_of_nodup h.nodup
  have h2 : (addrs l).toFinset ⊆ Finset.range mem.length := by
    intro x hx
    simp only [List.mem_toFinset] at hx
    exact Finset.mem_range.mpr (h.mem_lt x hx)
  have h3 := Finset.card_le_card h2
  rw [h1, Finset.card_range, length_addrs] at h3
  exact h3

/-- A chain visiting no node starts at null. -/
theorem Chain.eq_none_of_nil {mem : Mem T} {p c : Option Addr}
    (h : Chain mem p c []) : c = none := by
  cases h
  rfl

/-- The last node of a nonempty chain: it is the `tail`, its `next` is
null, and it carries the last value. -/
theorem Chain.last_spec {mem : Mem T} {p c : Option Addr} {l : List (Addr × T)}
    (h : Chain mem p c l) (hne : l ≠ []) :
    ∃ a n, (addrs l).getLast? = some a ∧ getNode mem a = some n ∧
      n.next = none ∧ (vals l).getLast? = some n.value := by
  induction h with
  | nil p => exact absurd rfl hne
  | cons hget hprev htail ih =>
    rename_i p a n lt
    cases lt with
    | nil => exact ⟨a, n, rfl, hget, htail.eq_none_of_nil, rfl⟩
    | cons y lt' =>
      obtain ⟨a', n', h1, h2, h3, h4⟩ := ih (by simp)
      refine ⟨a', n', ?_, h2, h3, ?_⟩
      · simpa using h1
      · simpa using h4

/-- The forward snapshot loop collects exactly the chain's values. -/
theorem fwdAux_chain {mem : Mem T} {p c : Option Addr} {l : List (Addr × T)}
    (h : Chain mem p c l) {fuel : Nat} (hf : l.length ≤ fuel) :
    fwdAux mem c fuel = some (vals l) := by
  induction h generalizing fuel with
  | nil p => cases fuel <;> rfl
  | cons hget hprev htail ih =>
    cases fuel with
    | zero => simp at hf
    | succ fuel =>
      have hf' : _ ≤ fuel := Nat.succ_le_succ_iff.mp (by simpa using hf)
      simp [fwdAux, hget, ih hf']

/-- The backward snapshot loop, run from the last address of a chain
segment, yields the segment's values reversed and then continues from
the segment's entry predecessor. -/
theorem bwdAux_chain_seg {mem : Mem T} {p c : Option Addr} {l : List (Addr × T)}
    (h : Chain mem p c l) (hne : l ≠ []) :
    ∀ k r, bwdAux mem p k = some r →
      ∃ t, (addrs l).getLast? = some t ∧
        bwdAux mem (some t) (k + l.length) = some ((vals l).reverse ++ r) := by
  induction h with
  | nil p => exact absurd rfl hne
  | cons hget hprev htail ih =>
    rename_i p a n lt
    intro k r hk
    cases lt with
    | nil =>
      refine ⟨a, rfl, ?_⟩
      simp only [List.length_cons, List.length_nil]
      simp [bwdAux, hget, hprev, hk]
    | cons y lt' =>
      have hstep : bwdAux mem (some a) (k + 1) = some (n.value :: r) := by
        simp [bwdAux, hget, hprev, hk]
      obtain ⟨t, ht, hb⟩ := ih (by simp) (k + 1) (n.value :: r) hstep
      refine ⟨t, by simpa using ht, ?_⟩
      have harith : k + 1 + (y :: lt').length = k + ((a, n.value) :: y :: lt').length := by
        simp
        omega
      rw [harith] at hb
      rw [hb]
      simp

/-- The `find` loop returns the first chain entry holding `val`, or
null when no entry does. -/
theorem findAux_chain [DecidableEq T] {mem : Mem T} {p c : Option Addr}
    {l : List (Addr × T)} (h : Chain mem p c l) (val : T) {fuel : Nat}
    (hf : l.length ≤ fuel) :
    ((∀ x ∈ l, x.2 ≠ val) ∧ findAux mem val c fuel = some none) ∨
    (∃ l1 a l2, l = l1 ++ (a, val) :: l2 ∧ (∀ x ∈ l1, x.2 ≠ val) ∧
      findAux mem val c fuel = some (some a)) := by
  induction h generalizing fuel with
  | nil p =>
    left
    exact ⟨by simp, by cases fuel <;> rfl⟩
  | cons hget hprev htail ih =>
    rename_i p a n lt
    cases fuel with
    | zero => simp at hf
    | succ fuel =>
      have hf' : lt.length ≤ fuel := Nat.succ_le_succ_iff.mp (by simpa using hf)
      by_cases hv : n.value = val
      · right
        refine ⟨[], a, lt, by simp [hv], by simp, ?_⟩
        simp [findAux, hget, hv]
      · rcases ih hf' with ⟨hall, heq⟩ | ⟨l1, b, l2, heq, hl1, hfind⟩
        · left
          refine ⟨?_, by simp [findAux, hget, hv, heq]⟩
          intro x hx
          rcases List.mem_cons.mp hx with rfl | hx
          · exact hv
          · exact hall x hx
        · right
          refine ⟨(a, n.value) :: l1, b, l2, by simp [heq], ?_, ?_⟩
          · intro x hx
            rcases List.mem_cons.mp hx with rfl | hx
            · exact hv
            · exact hl1 x hx
          · simp [findAux, hget, hv, hfind]

/-- `get_fwd` on a well-formed chain returns its value sequence. -/
theorem get_fwd_chain {s : ThreadSafeList2D T} {l : List (Addr × T)}
    (hc : Chain s.mem none s.head l) : get_fwd s = some (vals l) :=
  fwdAux_chain hc hc.length_le

/-- `get_bwd` on a well-formed state returns the reversed value
sequence. -/
theorem get_bwd_chain {s : ThreadSafeList2D T} {l : List (Addr × T)}
    (hc : Chain s.mem none s.head l) (ht : s.tail = (addrs l).getLast?) :
    get_bwd s = some (vals l).reverse := by
  cases l with
  | nil =>
    have : s.tail = none := by simpa using ht
    unfold get_bwd
    rw [this]
    cases s.mem.length <;> rfl
  | cons x l' =>
    have hk : bwdAux s.mem none (s.mem.length - (x :: l').length) = some [] := by
      cases h : s.mem.length - (x :: l').length <;> rfl
    obtain ⟨t, htl, hb⟩ := bwdAux_chain_seg hc (by simp) _ [] hk
    have harith : s.mem.length - (x :: l').length + (x :: l').length = s.mem.length := by
      have := hc.length_le
      omega
    rw [harith] at hb
    unfold get_bwd
    rw [ht, htl, hb]
    simp

/-- `find` on a well-formed state: dichotomy between no match and first
match. -/
theorem find_chain [DecidableEq T] {s : ThreadSafeList2D T} {l : List (Addr × T)}
    (hc : Chain s.mem none s.head l) (val : T) :
    ((∀ x ∈ l, x.2 ≠ val) ∧ find s val = some none) ∨
    (∃ l1 a l2, l = l1 ++ (a, val) :: l2 ∧ (∀ x ∈ l1, x.2 ≠ val) ∧
      find s val = some (some a)) :=
  findAux_chain hc val hc.length_le

/-- Rewriting the `prev` field of a chain's first node retargets its
entry predecessor and nothing else. -/
theorem Chain.retarget_prev {mem : Mem T} {p : Option Addr} {b : Addr}
    {l : List (Addr × T)} (h : Chain mem p (some b) l) (q : Option Addr) :
    ∃ mem', setPrevAt mem (some b) q = some mem' ∧ Chain mem' q (some b) l := by
  have hnd := h.nodup
  cases h with
  | cons hget hprev htail =>
    rename_i n lt
    have hset : setPrevAt mem (some b) q =
        some (mem.set b (some { n with prev := q })) := store_eq_some hget
    refine ⟨_, hset, ?_⟩
    refine Chain.cons (n := { n with prev := q }) ?_ rfl ?_
    · rw [getNode_set_self (getNode_lt hget)]
    · simp only [addrs_cons] at hnd
      have hb_notin : b ∉ addrs lt := (List.nodup_cons.mp hnd).1
      refine htail.congr ?_
      intro x hx
      refine getNode_set_ne ?_
      intro hbx
      exact hb_notin (hbx ▸ hx)

/-- Freeing a slot off the chain preserves the chain. -/
theorem Chain.free_not_mem {mem : Mem T} {p c : Option Addr} {l : List (Addr × T)}
    {a : Addr} (h : Chain mem p c l) (ha : a ∉ addrs l) :
    Chain (mem.set a none) p c l := by
  refine h.congr ?_
  intro x hx
  refine getNode_set_ne ?_
  intro h'
  subst h'
  exact ha hx

/-- A chain starting at null is empty. -/
theorem Chain.eq_nil_of_none {mem : Mem T} {p : Option Addr} {l : List (Addr × T)}
    (h : Chain mem p none l) : l = [] := by
  cases h
  rfl

/-- A live slot of an extended heap is the fresh slot or an old live
slot. -/
theorem getNode_concat_dom {mem : Mem T} {o : Option (NodeRec T)} {x : Addr}
    (h : getNode (mem ++ [o]) x ≠ none) : x = mem.length ∨ getNode mem x ≠ none := by
  rcases Nat.lt_trichotomy x mem.length with hx | hx | hx
  · right
    rw [getNode_append hx] at h
    exact h
  · left
    exact hx
  · exfalso
    apply h
    have : (mem ++ [o]).length ≤ x := by simp; omega
    simp [getNode, List.getElem?_eq_none this]


/-- Effect of `push_front` on a well-formed chain: the fresh node is
consed in front, `tail` stays the last address, `size_` grows by one.
-/
theorem push_front_chain {s : ThreadSafeList2D T} {l : List (Addr × T)}
    (hc : Chain s.mem none s.head l) (ht : s.tail = (addrs l).getLast?) (v : T) :
    ∃ s', push_front s v = some s' ∧
      Chain s'.mem none s'.head ((s.mem.length, v) :: l) ∧
      s'.head = some s.mem.length ∧
      s'.tail = (addrs ((s.mem.length, v) :: l)).getLast? ∧
      s'.size_ = s.size_ + 1 ∧ s'.mem.length = s.mem.length + 1 ∧
      (∀ x, getNode s'.mem x ≠ none → x = s.mem.length ∨ getNode s.mem x ≠ none) := by
  cases hh : s.head with
  | none =>
    rw [hh] at hc
    have hl : l = [] := hc.eq_nil_of_none
    subst hl
    refine ⟨⟨s.mem ++ [some ⟨none, v, none⟩], some s.mem.length, some s.mem.length,
      s.size_ + 1⟩, by simp [push_front, hh], ?_, rfl, by simp, rfl, by simp, ?_⟩
    · exact Chain.cons (n := ⟨none, v, none⟩) (getNode_concat_self s.mem _) rfl (.nil _)
    · intro x hx
      exact getNode_concat_dom hx
  | some hA =>
    rw [hh] at hc
    cases hc with
    | cons hget hprev htail =>
      rename_i nh l'
      have hAlt : hA < s.mem.length := getNode_lt hget
      have hc1 : Chain (s.mem ++ [some ⟨none, v, some hA⟩]) none (some hA)
          ((hA, nh.value) :: l') := (Chain.cons hget hprev htail).append_ext _
      obtain ⟨mem2, hset, hc2⟩ := hc1.retarget_prev (some s.mem.length)
      simp only [setPrevAt] at hset
      refine ⟨⟨mem2, some s.mem.length, s.tail, s.size_ + 1⟩, ?_, ?_, rfl, ?_, rfl,
        ?_, ?_⟩
      · simp only [push_front, hh, setPrevAt]
        rw [hset]
      · refine Chain.cons (n := ⟨none, v, some hA⟩) ?_ rfl hc2
        rw [store_getNode_ne hset (Nat.ne_of_lt hAlt)]
        exact getNode_concat_self s.mem _
      · rw [ht]
        show (hA :: addrs l').getLast? = (s.mem.length :: hA :: addrs l').getLast?
        exact List.getLast?_cons_cons.symm
      · rw [store_length hset]
        simp
      · intro y hy
        have hy2 : getNode mem2 y ≠ none := hy
        have hy3 : getNode (s.mem ++ [some ⟨none, v, some hA⟩]) y ≠ none :=
          fun hnone => hy2 ((store_dom hset y).mpr hnone)
        exact getNode_concat_dom hy3

/-- Appending a fresh node after the chain's last node: `tail->next`
is rewritten, the fresh node carries `prev = tail`, and the chain is
the old one with the fresh pair appended. -/
theorem Chain.snoc {mem1 : Mem T} {p c : Option Addr} {l : List (Addr × T)}
    (h : Chain mem1 p c l) {t addr : Addr} (ht : (addrs l).getLast? = some t)
    {v : T} (haddr : getNode mem1 addr = some ⟨some t, v, none⟩)
    (hfresh : addr ∉ addrs l) :
    ∃ mem2, setNextAt mem1 (some t) (some addr) = some mem2 ∧
      Chain mem2 p c (l ++ [(addr, v)]) := by
  induction h with
  | nil p => simp at ht
  | cons hget hprev htail ih =>
    rename_i p a n lt
    have hnd := (Chain.cons hget hprev htail).nodup
    simp only [addrs_cons] at hnd
    cases lt with
    | nil =>
      have hta : t = a := by simpa using ht.symm
      subst hta
      have hset : setNextAt mem1 (some t) (some addr) =
          some (mem1.set t (some { n with next := some addr })) := store_eq_some hget
      refine ⟨_, hset, ?_⟩
      have haddr_ne : addr ≠ t := by
        intro hx
        exact hfresh (by simp [hx])
      refine Chain.cons (n := { n with next := some addr }) ?_ hprev ?_
      · rw [getNode_set_self (getNode_lt hget)]
      · refine Chain.cons (n := ⟨some t, v, none⟩) ?_ rfl (.nil _)
        rw [getNode_set_ne (fun hx => haddr_ne hx.symm)]
        exact haddr
    | cons y lt' =>
      have ht' : (addrs (y :: lt')).getLast? = some t := by
        simpa using ht
      have hfresh' : addr ∉ addrs (y :: lt') := by
        intro hx
        exact hfresh (List.mem_cons_of_mem _ hx)
      obtain ⟨mem2, hset, hchain⟩ := ih ht' hfresh'
      refine ⟨mem2, hset, ?_⟩
      have hat : a ≠ t := by
        intro hx
        exact (List.nodup_cons.mp hnd).1 (hx ▸ List.mem_of_mem_getLast? ht')
      simp only [setNextAt] at hset
      refine Chain.cons (n := n) ?_ hprev hchain
      rw [store_getNode_ne hset (fun hx => hat hx.symm)]
      exact hget

/-- Effect of `push_back` on a well-formed chain: the fresh node is
appended, it becomes the `tail`, `size_` grows by one. -/
theorem push_back_chain {s : ThreadSafeList2D T} {l : List (Addr × T)}
    (hc : Chain s.mem none s.head l) (ht : s.tail = (addrs l).getLast?) (v : T) :
    ∃ s', push_back s v = some s' ∧
      Chain s'.mem none s'.head (l ++ [(s.mem.length, v)]) ∧
      s'.tail = some s.mem.length ∧
      s'.tail = (addrs (l ++ [(s.mem.length, v)])).getLast? ∧
      s'.size_ = s.size_ + 1 ∧ s'.mem.length = s.mem.length + 1 ∧
      (∀ x, getNode s'.mem x ≠ none → x = s.mem.length ∨ getNode s.mem x ≠ none) := by
  have htail_last : (addrs (l ++ [(s.mem.length, v)])).getLast? =
      some s.mem.length := by
    rw [addrs_append]
    rw [List.getLast?_append_of_ne_nil _ (by simp [addrs])]
    rfl
  cases hh : s.head with
  | none =>
    rw [hh] at hc
    have hl : l = [] := hc.eq_nil_of_none
    subst hl
    have htn : s.tail = none := by simpa using ht
    refine ⟨⟨s.mem ++ [some ⟨s.tail, v, none⟩], some s.mem.length, some s.mem.length,
      s.size_ + 1⟩, by simp [push_back, hh], ?_, rfl, by simp [htail_last],
      rfl, by simp, ?_⟩
    · exact Chain.cons (n := ⟨s.tail, v, none⟩) (getNode_concat_self s.mem _) htn (.nil _)
    · intro x hx
      exact getNode_concat_dom hx
  | some hA =>
    rw [hh] at hc
    obtain ⟨t, htv⟩ : ∃ t, (addrs l).getLast? = some t := by
      cases hlast : (addrs l).getLast? with
      | none =>
        have : addrs l = [] := List.getLast?_eq_none_iff.mp hlast
        have hl : l = [] := by
          cases l with
          | nil => rfl
          | cons x l' => simp [addrs] at this
        subst hl
        exact absurd hc.eq_none_of_nil (by simp)
      | some t => exact ⟨t, rfl⟩
    have hts : s.tail = some t := by rw [ht, htv]
    have hc1 : Chain (s.mem ++ [some ⟨s.tail, v, none⟩]) none (some hA) l :=
      hc.append_ext _
    have haddr : getNode (s.mem ++ [some ⟨s.tail, v, none⟩]) s.mem.length =
        some ⟨some t, v, none⟩ := by
      rw [getNode_concat_self, hts]
    have hfresh : s.mem.length ∉ addrs l := by
      intro hx
      exact Nat.lt_irrefl _ (hc.mem_lt _ hx)
    obtain ⟨mem2, hset, hchain⟩ := hc1.snoc htv haddr hfresh
    refine ⟨⟨mem2, s.head, some s.mem.length, s.size_ + 1⟩, ?_, ?_, rfl,
      htail_last.symm, rfl, ?_, ?_⟩
    · simp only [push_back, hh]
      rw [hts] at hset ⊢
      rw [hset]
    · rw [hh]
      exact hchain
    · simp only [setNextAt] at hset
      rw [store_length hset]
      simp
    · intro y hy
      have hy2 : getNode mem2 y ≠ none := hy
      simp only [setNextAt] at hset
      have hy3 : getNode (s.mem ++ [some ⟨s.tail, v, none⟩]) y ≠ none :=
        fun hnone => hy2 ((store_dom hset y).mpr hnone)
      exact getNode_concat_dom hy3

/-- Reassemble an address/value pair (structure eta). -/
theorem pair_eta {x : Addr × T} {nv : T} (h : nv = x.2) : (x.1, nv) = x := by
  rw [h]

/-- Removing the last node of a chain: its `prev` is the address of
the node before it, which gets `next = null`, and the freed chain is
the original without its last pair.  This is the `tail` branch of
`remove`. -/
theorem Chain.unsnoc {mem : Mem T} {p c : Option Addr} {l : List (Addr × T)}
    {a : Addr} {v : T} (h : Chain mem p c (l ++ [(a, v)])) (hne : l ≠ []) :
    ∃ n t mem1, getNode mem a = some n ∧ n.prev = some t ∧
      (addrs l).getLast? = some t ∧
      setNextAt mem (some t) none = some mem1 ∧
      Chain (mem1.set a none) p c l := by
  induction l generalizing p c with
  | nil => exact absurd rfl hne
  | cons x l'' ih =>
    have hnd : (x.1 :: addrs (l'' ++ [(a, v)])).Nodup := by
      simpa only [List.cons_append, addrs_cons] using h.nodup
    have hx_notin : x.1 ∉ addrs (l'' ++ [(a, v)]) := (List.nodup_cons.mp hnd).1
    obtain ⟨nx, hcx, hgetx, hprevx, hvalx, htailx⟩ := h.cons_elim
    cases l'' with
    | nil =>
      obtain ⟨na, hnext_x, hgeta, hpreva, hvala, htaila⟩ := htailx.cons_elim
      have hax : a ≠ x.1 := by
        intro hax
        exact hx_notin (by simp [hax])
      refine ⟨na, x.1, mem.set x.1 (some { nx with next := none }), hgeta, hpreva,
        by simp, store_eq_some hgetx, ?_⟩
      rw [hcx, ← pair_eta hvalx]
      refine Chain.cons (n := { nx with next := none }) ?_ hprevx (.nil _)
      rw [getNode_set_ne hax, getNode_set_self (getNode_lt hgetx)]
    | cons y l''' =>
      obtain ⟨n, t, mem1, hna, hprev_a, hlast, hset, hchain⟩ := ih htailx (by simp)
      have ha_ne_x : a ≠ x.1 := by
        intro hax
        exact hx_notin (by simp [← hax, addrs])
      have ht_ne_x : t ≠ x.1 := by
        intro htx
        refine hx_notin ?_
        rw [addrs_append]
        exact List.mem_append_left _ (htx ▸ List.mem_of_mem_getLast? hlast)
      refine ⟨n, t, mem1, hna, hprev_a, ?_, hset, ?_⟩
      · show (x.1 :: y.1 :: addrs l''').getLast? = some t
        rw [List.getLast?_cons_cons]
        exact hlast
      · rw [hcx, ← pair_eta hvalx]
        refine Chain.cons (n := nx) ?_ hprevx hchain
        rw [getNode_set_ne ha_ne_x]
        simp only [setNextAt] at hset
        rw [store_getNode_ne hset ht_ne_x]
        exact hgetx

/-- Removing a node that is neither first nor last: its neighbours are
relinked around it and the freed chain is the two segments joined.
This is the middle branch of `remove`. -/
theorem Chain.excise {mem : Mem T} {p c : Option Addr} {l1 l2 : List (Addr × T)}
    {a : Addr} {v : T} (h : Chain mem p c (l1 ++ (a, v) :: l2))
    (h1 : l1 ≠ []) (h2 : l2 ≠ []) :
    ∃ n pa na mem1 mem2, getNode mem a = some n ∧
      n.prev = some pa ∧ n.next = some na ∧
      pa ∈ addrs l1 ∧ na ∈ addrs l2 ∧
      setNextAt mem (some pa) (some na) = some mem1 ∧
      setPrevAt mem1 (some na) (some pa) = some mem2 ∧
      Chain (mem2.set a none) p c (l1 ++ l2) := by
  induction l1 generalizing p c with
  | nil => exact absurd rfl h1
  | cons x l1' ih =>
    have hnd : (x.1 :: addrs (l1' ++ (a, v) :: l2)).Nodup := by
      simpa only [List.cons_append, addrs_cons] using h.nodup
    have hx_notin : x.1 ∉ addrs (l1' ++ (a, v) :: l2) := (List.nodup_cons.mp hnd).1
    obtain ⟨nx, hcx, hgetx, hprevx, hvalx, htailx⟩ := h.cons_elim
    cases l1' with
    | nil =>
      obtain ⟨n, hnext_x, hgeta, hpreva, hvala, htaila⟩ := htailx.cons_elim
      cases l2 with
      | nil => exact absurd rfl h2
      | cons z l2' =>
      obtain ⟨nz, hnext_a, hgetz, hprevz, hvalz, htailz⟩ := htaila.cons_elim
      have hnd' : (x.1 :: a :: z.1 :: addrs l2').Nodup := by
        simpa only [List.nil_append, addrs_cons] using hnd
      have hx1 := (List.nodup_cons.mp hnd').1
      have hnd'' := (List.nodup_cons.mp hnd').2
      have ha1 := (List.nodup_cons.mp hnd'').1
      have hnd''' := (List.nodup_cons.mp hnd'').2
      have hz1 := (List.nodup_cons.mp hnd''').1
      have ha_ne_x : a ≠ x.1 := fun he => hx1 (by simp [he])
      have hz_ne_x : z.1 ≠ x.1 := fun he => hx1 (by simp [he])
      have hz_ne_a : z.1 ≠ a := fun he => ha1 (by simp [he])
      have hset1 : setNextAt mem (some x.1) (some z.1) =
          some (mem.set x.1 (some { nx with next := some z.1 })) := store_eq_some hgetx
      have hgetz1 : getNode (mem.set x.1 (some { nx with next := some z.1 })) z.1 =
          some nz := by
        rw [getNode_set_ne hz_ne_x.symm]
        exact hgetz
      have hset2 : setPrevAt (mem.set x.1 (some { nx with next := some z.1 }))
          (some z.1) (some x.1) =
          some ((mem.set x.1 (some { nx with next := some z.1 })).set z.1
            (some { nz with prev := some x.1 })) := store_eq_some hgetz1
      refine ⟨n, x.1, z.1, _, _, hgeta, hpreva, hnext_a, by simp, by simp,
        hset1, hset2, ?_⟩
      rw [hcx, ← pair_eta hvalx]
      show Chain _ p (some x.1) ((x.1, nx.value) :: (z :: l2'))
      rw [← pair_eta hvalz]
      refine Chain.cons (n := { nx with next := some z.1 }) ?_ hprevx ?_
      · rw [getNode_set_ne ha_ne_x, getNode_set_ne hz_ne_x,
          getNode_set_self (getNode_lt hgetx)]
      · refine Chain.cons (n := { nz with prev := some x.1 }) ?_ rfl ?_
        · rw [getNode_set_ne hz_ne_a.symm,
            getNode_set_self (getNode_lt hgetz1)]
        · refine htailz.congr ?_
          intro w hw
          have hw_ne_a : a ≠ w := fun he => ha1 (by simp [he ▸ hw])
          have hw_ne_z : z.1 ≠ w := fun he => hz1 (he ▸ hw)
          have hw_ne_x : x.1 ≠ w := fun he => hx1 (by simp [he ▸ hw])
          rw [getNode_set_ne hw_ne_a, getNode_set_ne hw_ne_z,
            getNode_set_ne hw_ne_x]
    | cons w l1'' =>
      obtain ⟨n, pa, na, mem1, mem2, hgeta, hpa, hna, hpa_mem, hna_mem,
        hset1, hset2, hchain⟩ := ih htailx (by simp)
      have ha_ne_x : a ≠ x.1 := by
        intro he
        refine hx_notin ?_
        rw [addrs_append]
        exact List.mem_append_right _ (by simp [he])
      have hpa_ne_x : pa ≠ x.1 := by
        intro he
        refine hx_notin ?_
        rw [addrs_append]
        exact List.mem_append_left _ (he ▸ hpa_mem)
      have hna_ne_x : na ≠ x.1 := by
        intro he
        refine hx_notin ?_
        rw [addrs_append]
        refine List.mem_append_right _ ?_
        simpa using Or.inr (he ▸ hna_mem)
      refine ⟨n, pa, na, mem1, mem2, hgeta, hpa, hna,
        List.mem_cons_of_mem _ hpa_mem, hna_mem, hset1, hset2, ?_⟩
      rw [hcx, ← pair_eta hvalx]
      refine Chain.cons (n := nx) ?_ hprevx hchain
      simp only [setNextAt, setPrevAt] at hset1 hset2
      rw [getNode_set_ne ha_ne_x, store_getNode_ne hset2 hna_ne_x,
        store_getNode_ne hset1 hpa_ne_x]
      exact hgetx

/-- Master characterization of `remove` on a well-formed state: either
no node matches and the call reports `ElementNotFound` with the state
untouched, or the first matching node (in forward order) is unlinked,
the other nodes keep their values and relative order, and the state is
well-formed again with `size_` decremented. -/
theorem remove_chain [DecidableEq T] {s : ThreadSafeList2D T} {l : List (Addr × T)}
    (hc : Chain s.mem none s.head l) (ht : s.tail = (addrs l).getLast?)
    (hdom : ∀ x, getNode s.mem x ≠ none → x ∈ addrs l) (val : T) :
    ((∀ x ∈ l, x.2 ≠ val) ∧
      remove s val = some (s, Except.error ListErr.elementNotFound)) ∨
    (∃ l1 a l2 s', l = l1 ++ (a, val) :: l2 ∧ (∀ x ∈ l1, x.2 ≠ val) ∧
      remove s val = some (s', Except.ok ()) ∧
      Chain s'.mem none s'.head (l1 ++ l2) ∧
      s'.size_ = s.size_ - 1 ∧
      s'.tail = (addrs (l1 ++ l2)).getLast? ∧
      (∀ x, getNode s'.mem x ≠ none → x ∈ addrs (l1 ++ l2))) := by
  rcases find_chain hc val with ⟨hall, hfind⟩ | ⟨l1, a, l2, heq, hl1, hfind⟩
  · left
    refine ⟨hall, ?_⟩
    simp [remove, hfind]
  · right
    subst heq
    cases l1 with
    | nil =>
      obtain ⟨n, hhead, hget, hprev, hval, htail⟩ :=
        hc.cons_elim (x := (a, val)) (l := l2)
      cases hl2 : l2 with
      | nil =>
        subst hl2
        have hnext : n.next = none := htail.eq_none_of_nil
        refine ⟨[], a, [], ⟨s.mem.set a none, none, none, s.size_ - 1⟩,
          rfl, by simp, ?_, .nil _, rfl, by simp, ?_⟩
        · have hhead' : s.head = some a := hhead
          simp only [remove, hfind, hget, hnext, hhead', if_true]
        · intro x hx
          by_cases hxa : x = a
          · subst hxa
            exact absurd (getNode_set_none_self s.mem x) hx
          · rw [getNode_set_ne (fun he => hxa he.symm)] at hx
            have := hdom x hx
            simp at this
            exact absurd this hxa
      | cons y l2' =>
        subst hl2
        obtain ⟨ny, hnext, hgety, hprevy, hvaly, htaily⟩ := htail.cons_elim
        rw [hnext] at htail
        obtain ⟨mem1, hset, hc2⟩ := htail.retarget_prev none
        have hfree : a ∉ addrs (y :: l2') := by
          have hnd : (a :: addrs (y :: l2')).Nodup := by
            simpa only [List.nil_append, addrs_cons] using hc.nodup
          exact (List.nodup_cons.mp hnd).1
        have hchain : Chain (mem1.set a none) none (some y.1) (y :: l2') :=
          hc2.free_not_mem hfree
        refine ⟨[], a, y :: l2', ⟨mem1.set a none, some y.1, s.tail, s.size_ - 1⟩,
          rfl, by simp, ?_, hchain, rfl, ?_, ?_⟩
        · have hhead' : s.head = some a := hhead
          simp only [remove, hfind, hget, hnext, hset, hhead', if_true]
        · rw [ht]
          show (a :: y.1 :: addrs l2').getLast? = (y.1 :: addrs l2').getLast?
          exact List.getLast?_cons_cons
        · intro x hx
          have hx2 : getNode (mem1.set a none) x ≠ none := hx
          have hxa : x ≠ a := by
            intro he
            exact hx2 (he ▸ getNode_set_none_self mem1 a)
          rw [getNode_set_ne (fun he => hxa he.symm)] at hx2
          simp only [setPrevAt] at hset
          have hx3 : getNode s.mem x ≠ none :=
            fun hnone => hx2 ((store_dom hset x).mpr hnone)
          have := hdom x hx3
          simp only [List.nil_append, addrs_cons, List.mem_cons] at this
          rcases this with he | hrest
          · exact absurd he hxa
          · simpa using hrest
    | cons x l1' =>
      obtain ⟨nx, hhead, hgetx, hprevx, hvalx, htailx⟩ := hc.cons_elim
      have hx_notin : x.1 ∉ addrs (l1' ++ (a, val) :: l2) := by
        have hnd : (x.1 :: addrs (l1' ++ (a, val) :: l2)).Nodup := by
          simpa only [List.cons_append, addrs_cons] using hc.nodup
        exact (List.nodup_cons.mp hnd).1
      have ha_ne_x : a ≠ x.1 := by
        intro he
        refine hx_notin ?_
        rw [addrs_append]
        exact List.mem_append_right _ (by simp [he])
      have hhead_ne : ¬ s.head = some a := by
        rw [hhead]
        intro he
        exact ha_ne_x (Option.some_injective _ he.symm)
      cases hl2 : l2 with
      | nil =>
        subst hl2
        obtain ⟨n, t, mem1, hget, hprev, hlast, hset, hchain⟩ :=
          hc.unsnoc (by simp)
        have htails : s.tail = some a := by
          rw [ht, addrs_append]
          rw [List.getLast?_append_of_ne_nil _ (by simp [addrs])]
          rfl
        refine ⟨x :: l1', a, [], ⟨mem1.set a none, s.head, some t, s.size_ - 1⟩,
          rfl, hl1, ?_, by simpa using hchain, rfl, by simpa using hlast.symm, ?_⟩
        · simp only [remove, hfind, hget, hprev, hset]
          rw [if_neg hhead_ne, if_pos htails]
        · intro w hw
          have hw2 : getNode (mem1.set a none) w ≠ none := hw
          have hwa : w ≠ a := by
            intro he
            exact hw2 (he ▸ getNode_set_none_self mem1 a)
          rw [getNode_set_ne (fun he => hwa he.symm)] at hw2
          simp only [setNextAt] at hset
          have hw3 : getNode s.mem w ≠ none :=
            fun hnone => hw2 ((store_dom hset w).mpr hnone)
          have := hdom w hw3
          rw [addrs_append] at this
          rcases List.mem_append.mp this with hin | hin
          · simpa using hin
          · simp at hin
            exact absurd hin hwa
      | cons y l2' =>
        subst hl2
        obtain ⟨n, pa, na, mem1, mem2, hget, hprev, hnext, hpa_mem, hna_mem,
          hset1, hset2, hchain⟩ := hc.excise (by simp) (by simp)
        have ha_notin_r : a ∉ addrs (y :: l2') := by
          have hnd2 : (a :: addrs (y :: l2')).Nodup := by
            have : (addrs (l1' ++ (a, val) :: y :: l2')).Nodup :=
              (List.nodup_cons.mp (by
                simpa only [List.cons_append, addrs_cons] using hc.nodup)).2
            rw [addrs_append] at this
            simpa only [addrs_cons] using this.of_append_right
          exact (List.nodup_cons.mp hnd2).1
        have htail_ne : ¬ s.tail = some a := by
          rw [ht]
          intro he
          have h1 : (addrs ((x :: l1') ++ (a, val) :: y :: l2')).getLast? =
              (addrs (y :: l2')).getLast? := by
            rw [addrs_append]
            rw [List.getLast?_append_of_ne_nil _ (by simp [addrs])]
            show (a :: y.1 :: addrs l2').getLast? = (y.1 :: addrs l2').getLast?
            exact List.getLast?_cons_cons
          rw [h1] at he
          exact ha_notin_r (List.mem_of_mem_getLast? he)
        refine ⟨x :: l1', a, y :: l2',
          ⟨mem2.set a none, s.head, s.tail, s.size_ - 1⟩,
          rfl, hl1, ?_, hchain, rfl, ?_, ?_⟩
        · simp only [remove, hfind, hget, hprev, hnext, hset1, hset2]
          rw [if_neg hhead_ne, if_neg htail_ne]
        · rw [ht, addrs_append, addrs_append]
          rw [List.getLast?_append_of_ne_nil _ (by simp [addrs]),
            List.getLast?_append_of_ne_nil _ (by simp [addrs])]
          show (a :: y.1 :: addrs l2').getLast? = (y.1 :: addrs l2').getLast?
          exact List.getLast?_cons_cons
        · intro w hw
          have hw2 : getNode (mem2.set a none) w ≠ none := hw
          have hwa : w ≠ a := by
            intro he
            exact hw2 (he ▸ getNode_set_none_self mem2 a)
          rw [getNode_set_ne (fun he => hwa he.symm)] at hw2
          simp only [setNextAt, setPrevAt] at hset1 hset2
          have hw3 : getNode mem1 w ≠ none :=
            fun hnone => hw2 ((store_dom hset2 w).mpr hnone)
          have hw4 : getNode s.mem w ≠ none :=
            fun hnone => hw3 ((store_dom hset1 w).mpr hnone)
          have := hdom w hw4
          rw [addrs_append] at this ⊢
          rcases List.mem_append.mp this with hin | hin
          · exact List.mem_append_left _ hin
          · refine List.mem_append_right _ ?_
            simp only [addrs_cons, List.mem_cons] at hin
            rcases hin with he | hin
            · exact absurd he hwa
            · simpa using hin

/-- `front` returns the first chain value, or `AcceessViolation` on the
empty chain. -/
theorem front_chain {s : ThreadSafeList2D T} {l : List (Addr × T)}
    (hc : Chain s.mem none s.head l) :
    front s = some (match vals l with
      | [] => Except.error ListErr.acceessViolation
      | w :: _ => Except.ok w) := by
  cases l with
  | nil =>
    have hh : s.head = none := hc.eq_none_of_nil
    simp [front, hh]
  | cons x l' =>
    obtain ⟨n, hh, hget, _, hval, _⟩ := hc.cons_elim
    simp [front, hh, hget, hval]

/-- `back` returns the last chain value, or `AcceessViolation` on the
empty chain. -/
theorem back_chain {s : ThreadSafeList2D T} {l : List (Addr × T)}
    (hc : Chain s.mem none s.head l) (ht : s.tail = (addrs l).getLast?) :
    back s = some (match (vals l).getLast? with
      | none => Except.error ListErr.acceessViolation
      | some w => Except.ok w) := by
  cases l with
  | nil =>
    have htn : s.tail = none := by simpa using ht
    simp [back, htn, vals]
  | cons x l' =>
    obtain ⟨a, n, hlast, hget, _, hvlast⟩ := hc.last_spec (by simp)
    have hts : s.tail = some a := by rw [ht, hlast]
    have hvlast' : (x.2 :: vals l').getLast? = some n.value := hvlast
    simp [back, hts, hget, hvlast']

/-- The freshly constructed list is well-formed. -/
theorem wf_init : Wf (init : ThreadSafeList2D T) := by
  refine ⟨[], .nil _, rfl, rfl, ?_⟩
  intro a ha
  simp [getNode, init] at ha

/-- The concrete one-node list is well-formed. -/
theorem wf_single5 : Wf single5 := by
  refine ⟨[(0, 5)], ?_, rfl, by simp [single5, addrs], ?_⟩
  · exact Chain.cons (n := ⟨none, 5, none⟩) rfl rfl (.nil _)
  · intro a ha
    cases a with
    | zero => simp [addrs]
    | succ a' =>
      exfalso
      apply ha
      simp [getNode, single5]

/-- C1: every public operation preserves the structural invariants.
`Wf` packages them: `head` is null iff `tail` is null iff the count is
zero; following `next` from `head` visits `size_` nodes, each once
with no cycles, ending at `tail`; `prev` links point to each node's
predecessor; no unreachable live nodes.  `push_front`, `push_back` and
`remove` map a `Wf` state to a `Wf` state (and never hit undefined
behaviour); `front` and `back` are likewise defined and return no
state (they perform no stores); `size` and `empty` are pure field
reads. -/
theorem wf_preserved [DecidableEq T] (s : ThreadSafeList2D T) (v : T) (h : Wf s) :
    (∃ s₁, push_front s v = some s₁ ∧ Wf s₁) ∧
    (∃ s₂, push_back s v = some s₂ ∧ Wf s₂) ∧
    (∃ r, remove s v = some r ∧ Wf r.1) ∧
    (∃ rf, front s = some rf) ∧ (∃ rb, back s = some rb) := by
  obtain ⟨l, hc, hsize, ht, hdom⟩ := h
  refine ⟨?_, ?_, ?_, ⟨_, front_chain hc⟩, ⟨_, back_chain hc ht⟩⟩
  · obtain ⟨s₁, heq, hchain, _, ht1, hs1, _, hdom1⟩ := push_front_chain hc ht v
    refine ⟨s₁, heq, ⟨(s.mem.length, v) :: l, hchain, ?_, ht1, ?_⟩⟩
    · rw [hs1, hsize]
      rfl
    · intro x hx
      rcases hdom1 x hx with h1 | h1
      · simp [h1]
      · simp only [addrs_cons, List.mem_cons]
        exact Or.inr (hdom x h1)
  · obtain ⟨s₂, heq, hchain, _, ht2, hs2, _, hdom2⟩ := push_back_chain hc ht v
    refine ⟨s₂, heq, ⟨l ++ [(s.mem.length, v)], hchain, ?_, ht2, ?_⟩⟩
    · rw [hs2, hsize]
      simp
    · intro x hx
      rcases hdom2 x hx with h1 | h1
      · rw [addrs_append]
        exact List.mem_append_right _ (by simp [h1])
      · rw [addrs_append]
        exact List.mem_append_left _ (hdom x h1)
  · rcases remove_chain hc ht hdom v with ⟨_, heq⟩ |
      ⟨l1, a, l2, s', heqL, _, heq, hchain, hs, ht2, hdom2⟩
    · exact ⟨_, heq, ⟨l, hc, hsize, ht, hdom⟩⟩
    · refine ⟨_, heq, ⟨l1 ++ l2, hchain, ?_, ht2, hdom2⟩⟩
      rw [hs, hsize, heqL]
      simp

/-- Witness for C1, at the empty list with value `0`. -/
theorem wf_preserved_witness :
    (∃ s₁, push_front (init : ThreadSafeList2D Nat) 0 = some s₁ ∧ Wf s₁) ∧
    (∃ s₂, push_back (init : ThreadSafeList2D Nat) 0 = some s₂ ∧ Wf s₂) ∧
    (∃ r, remove (init : ThreadSafeList2D Nat) 0 = some r ∧ Wf r.1) ∧
    (∃ rf, front (init : ThreadSafeList2D Nat) = some rf) ∧
    (∃ rb, back (init : ThreadSafeList2D Nat) = some rb) :=
  wf_preserved init 0 wf_init

/-- C2: on a well-formed list whose forward value sequence is `fw`,
when `v ∈ fw`, `remove v` succeeds, deletes exactly the first node
whose value is `v` (the result's forward sequence is `fw.erase v`,
which keeps every other value in order), decrements the count by one,
and leaves a well-formed list (neighbours correctly re-linked,
endpoints updated). -/
theorem remove_first_match [DecidableEq T] (s : ThreadSafeList2D T) (v : T)
    (fw : List T) (h : Wf s) (hfw : get_fwd s = some fw) (hv : v ∈ fw) :
    ∃ s', remove s v = some (s', Except.ok ()) ∧ Wf s' ∧
      get_fwd s' = some (fw.erase v) ∧ s'.size_ + 1 = s.size_ := by
  obtain ⟨l, hc, hsize, ht, hdom⟩ := h
  rw [get_fwd_chain hc] at hfw
  have hfw' : fw = vals l := (Option.some_injective _ hfw).symm
  subst hfw'
  rcases remove_chain hc ht hdom v with ⟨hall, _⟩ |
    ⟨l1, a, l2, s', heqL, hl1, heq, hchain, hs, ht2, hdom2⟩
  · exfalso
    obtain ⟨x, hx, hx2⟩ := List.mem_map.mp hv
    exact hall x hx hx2
  · have hvals : vals l = vals l1 ++ v :: vals l2 := by
      rw [heqL]
      simp
    have hnotin : v ∉ vals l1 := by
      intro hvin
      obtain ⟨x, hx, hx2⟩ := List.mem_map.mp hvin
      exact hl1 x hx hx2
    refine ⟨_, heq, ⟨l1 ++ l2, hchain, ?_, ht2, hdom2⟩, ?_, ?_⟩
    · rw [hs, hsize, heqL]
      simp
    · rw [get_fwd_chain hchain, hvals,
        List.erase_append_right _ hnotin, List.erase_cons_head]
      simp
    · rw [hs, hsize, heqL]
      simp
      omega

/-- Witness for C2: removing `5` from the one-node list `[5]`. -/
theorem remove_first_match_witness :
    ∃ s', remove single5 5 = some (s', Except.ok ()) ∧ Wf s' ∧
      get_fwd s' = some ([5].erase 5) ∧ s'.size_ + 1 = single5.size_ :=
  remove_first_match single5 5 [5] wf_single5 rfl (by decide)

/-- C3: on a well-formed list whose forward value sequence is `fw`,
when no node's value equals `v`, `remove v` reports `ElementNotFound`
and the returned state is exactly the input state: count, head, tail
and both snapshots are unchanged, with no partial unlinking. -/
theorem remove_not_found [DecidableEq T] (s : ThreadSafeList2D T) (v : T)
    (fw : List T) (h : Wf s) (hfw : get_fwd s = some fw) (hv : v ∉ fw) :
    remove s v = some (s, Except.error ListErr.elementNotFound) := by
  obtain ⟨l, hc, hsize, ht, hdom⟩ := h
  rw [get_fwd_chain hc] at hfw
  have hfw' : fw = vals l := (Option.some_injective _ hfw).symm
  subst hfw'
  rcases remove_chain hc ht hdom v with ⟨_, heq⟩ |
    ⟨l1, a, l2, _, heqL, _, _, _, _, _, _⟩
  · exact heq
  · exfalso
    apply hv
    rw [heqL]
    simp

/-- Witness for C3: removing the absent value `7` from `[5]`. -/
theorem remove_not_found_witness :
    remove single5 7 = some (single5, Except.error ListErr.elementNotFound) :=
  remove_not_found single5 7 [5] wf_single5 rfl (by decide)

/-- C4: on a well-formed list, `front` fails with `AcceessViolation`
exactly when the count is zero and otherwise returns the head node's
value (the first of the forward snapshot); symmetrically `back` fails
exactly when the count is zero and otherwise returns the tail node's
value (the last of the forward snapshot).  Neither operation returns a
state: the source performs no stores. -/
theorem front_back_spec (s : ThreadSafeList2D T) (h : Wf s) :
    (size s = 0 → front s = some (Except.error ListErr.acceessViolation) ∧
      back s = some (Except.error ListErr.acceessViolation)) ∧
    (size s ≠ 0 → ∃ fw w₁ w₂, get_fwd s = some fw ∧
      fw.head? = some w₁ ∧ front s = some (Except.ok w₁) ∧
      fw.getLast? = some w₂ ∧ back s = some (Except.ok w₂)) := by
  obtain ⟨l, hc, hsize, ht, hdom⟩ := h
  cases l with
  | nil =>
    refine ⟨fun _ => ⟨?_, ?_⟩, fun hne => absurd hsize hne⟩
    · simpa using front_chain hc
    · simpa using back_chain hc ht
  | cons x l' =>
    constructor
    · intro h0
      exfalso
      rw [size, hsize] at h0
      simp at h0
    · intro _
      obtain ⟨a, n, hlast, hget, _, hvlast⟩ := hc.last_spec (by simp)
      refine ⟨vals (x :: l'), x.2, n.value, get_fwd_chain hc, by simp, ?_,
        hvlast, ?_⟩
      · simpa using front_chain hc
      · rw [back_chain hc ht, hvlast]

/-- Witness for C4 at the one-node list `[5]`. -/
theorem front_back_spec_witness :
    (size single5 = 0 → front single5 = some (Except.error ListErr.acceessViolation) ∧
      back single5 = some (Except.error ListErr.acceessViolation)) ∧
    (size single5 ≠ 0 → ∃ fw w₁ w₂, get_fwd single5 = some fw ∧
      fw.head? = some w₁ ∧ front single5 = some (Except.ok w₁) ∧
      fw.getLast? = some w₂ ∧ back single5 = some (Except.ok w₂)) :=
  front_back_spec single5 wf_single5

/-- C5: on any well-formed list, `push_front v` and `push_back v`
always succeed (no error value exists in their type, and no undefined
behaviour occurs), increment the count by one, and afterwards
`front` respectively `back` returns `v`. -/
theorem push_spec (s : ThreadSafeList2D T) (v : T) (h : Wf s) :
    (∃ s₁, push_front s v = some s₁ ∧ front s₁ = some (Except.ok v) ∧
      size s₁ = size s + 1) ∧
    (∃ s₂, push_back s v = some s₂ ∧ back s₂ = some (Except.ok v) ∧
      size s₂ = size s + 1) := by
  obtain ⟨l, hc, hsize, ht, hdom⟩ := h
  constructor
  · obtain ⟨s₁, heq, hchain, _, ht1, hs1, _, _⟩ := push_front_chain hc ht v
    refine ⟨s₁, heq, ?_, hs1⟩
    simpa using front_chain hchain
  · obtain ⟨s₂, heq, hchain, _, ht2, hs2, _, _⟩ := push_back_chain hc ht v
    refine ⟨s₂, heq, ?_, hs2⟩
    rw [back_chain hchain ht2]
    have hl : (vals (l ++ [(s.mem.length, v)])).getLast? = some v := by simp
    rw [hl]

/-- Witness for C5 at the empty list with value `9`. -/
theorem push_spec_witness :
    (∃ s₁, push_front (init : ThreadSafeList2D Nat) 9 = some s₁ ∧
      front s₁ = some (Except.ok 9) ∧ size s₁ = size (init : ThreadSafeList2D Nat) + 1) ∧
    (∃ s₂, push_back (init : ThreadSafeList2D Nat) 9 = some s₂ ∧
      back s₂ = some (Except.ok 9) ∧ size s₂ = size (init : ThreadSafeList2D Nat) + 1) :=
  push_spec init 9 wf_init

/-- C6: starting from the empty list, `push_back 1; push_back 2;
push_back 3; push_back 4` yields forward snapshot `[1,2,3,4]` and
backward snapshot `[4,3,2,1]`; a subsequent `remove 4` succeeds and
yields `[1,2,3]` and `[3,2,1]`. -/
theorem round_trip_1234 :
    ∃ s4 s3 : ThreadSafeList2D Nat,
      ((((push_back init 1).bind (fun s => push_back s 2)).bind
        (fun s => push_back s 3)).bind (fun s => push_back s 4)) = some s4 ∧
      get_fwd s4 = some [1, 2, 3, 4] ∧ get_bwd s4 = some [4, 3, 2, 1] ∧
      remove s4 4 = some (s3, Except.ok ()) ∧
      get_fwd s3 = some [1, 2, 3] ∧ get_bwd s3 = some [3, 2, 1] :=
  ⟨_, _, rfl, rfl, rfl, rfl, rfl, rfl⟩

/-- C7: `empty()` returns true exactly when `size()` returns zero —
for every state of the structure (hence in particular every reachable
one); both are pure reads of the `size_` field, never erroring and
never mutating. -/
theorem empty_iff_size_zero (s : ThreadSafeList2D T) :
    empty s = true ↔ size s = 0 := by
  simp [empty, size]

/-- C8: with Empty meaning count zero and Populated meaning count at
least one: both pushes always move to Populated (so they are the
Empty-to-Populated transitions); a successful `remove` reaches Empty
exactly when the count was one; a failed `remove` returns the state
unchanged; and from Empty, `remove` always fails with
`ElementNotFound` (so no operation but a push leaves Empty). -/
theorem state_transitions [DecidableEq T] (s : ThreadSafeList2D T) (v : T)
    (h : Wf s) :
    (∀ s₁, push_front s v = some s₁ → 0 < size s₁) ∧
    (∀ s₂, push_back s v = some s₂ → 0 < size s₂) ∧
    (∀ s', remove s v = some (s', Except.ok ()) → (size s' = 0 ↔ size s = 1)) ∧
    (∀ s' e, remove s v = some (s', Except.error e) → s' = s) ∧
    (size s = 0 → remove s v = some (s, Except.error ListErr.elementNotFound)) := by
  obtain ⟨l, hc, hsize, ht, hdom⟩ := h
  have hrem := remove_chain hc ht hdom v
  refine ⟨?_, ?_, ?_, ?_, ?_⟩
  · intro s₁ heq1
    obtain ⟨s₁', heq, _, _, _, hs1, _, _⟩ := push_front_chain hc ht v
    rw [heq1] at heq
    have hinj := Option.some_injective _ heq
    subst hinj
    simp only [size]
    omega
  · intro s₂ heq1
    obtain ⟨s₂', heq, _, _, _, hs2, _, _⟩ := push_back_chain hc ht v
    rw [heq1] at heq
    have hinj := Option.some_injective _ heq
    subst hinj
    simp only [size]
    omega
  · intro s' heq1
    rcases hrem with ⟨_, heq⟩ | ⟨l1, a, l2, s2, heqL, _, heq, _, hs, _, _⟩
    · rw [heq] at heq1
      simp at heq1
    · rw [heq] at heq1
      have hinj := Option.some_injective _ heq1
      have hs' := congrArg Prod.fst hinj
      simp only at hs'
      subst hs'
      have hlen : s.size_ = l1.length + l2.length + 1 := by
        rw [hsize, heqL]
        simp
        omega
      simp only [size]
      omega
  · intro s' e heq1
    rcases hrem with ⟨_, heq⟩ | ⟨_, _, _, _, _, _, heq, _, _, _, _⟩
    · rw [heq] at heq1
      have hinj := Option.some_injective _ heq1
      exact (congrArg Prod.fst hinj).symm
    · rw [heq] at heq1
      simp at heq1
  · intro h0
    rcases hrem with ⟨_, heq⟩ | ⟨l1, a, l2, _, heqL, _, _, _, _, _, _⟩
    · exact heq
    · exfalso
      have hlen : l.length = 0 := by
        rw [← hsize]
        exact h0
      rw [heqL] at hlen
      simp at hlen

/-- Witness for C8 at the one-node list `[5]` with value `5`. -/
theorem state_transitions_witness :
    (∀ s₁, push_front single5 5 = some s₁ → 0 < size s₁) ∧
    (∀ s₂, push_back single5 5 = some s₂ → 0 < size s₂) ∧
    (∀ s', remove single5 5 = some (s', Except.ok ()) →
      (size s' = 0 ↔ size single5 = 1)) ∧
    (∀ s' e, remove single5 5 = some (s', Except.error e) → s' = single5) ∧
    (size single5 = 0 →
      remove single5 5 = some (single5, Except.error ListErr.elementNotFound)) :=
  state_transitions single5 5 wf_single5

/-- C10: on any well-formed state, the backward snapshot is exactly
the reverse of the forward snapshot, and the forward snapshot's length
equals `size()`. -/
theorem bwd_reverse_fwd (s : ThreadSafeList2D T) (h : Wf s) :
    ∃ fw bw, get_fwd s = some fw ∧ get_bwd s = some bw ∧ bw = fw.reverse ∧
      fw.length = size s := by
  obtain ⟨l, hc, hsize, ht, hdom⟩ := h
  exact ⟨vals l, (vals l).reverse, get_fwd_chain hc, get_bwd_chain hc ht, rfl,
    by simp [size, hsize]⟩

/-- Witness for C10 at the one-node list `[5]`. -/
theorem bwd_reverse_fwd_witness :
    ∃ fw bw, get_fwd single5 = some fw ∧ get_bwd single5 = some bw ∧
      bw = fw.reverse ∧ fw.length = size single5 :=
  bwd_reverse_fwd single5 wf_single5

end ThreadSafeList2D
